import Mathlib

/-!
Verification of the Dynamite layer library (`Source/Dynamite/Models.h`):
parameter registries (`ModelParameters`), model wrappers (`TModel`),
batch combinators (`Batch`), and function composition (`operator>>`).

The embedding models:
  * a CNTK `Parameter` / `Variable` handle as a structure with an identity
    (`uid`) and a name; equality of handles is equality of these structures;
  * `std::map<wstring, T>` as a sorted association list (`List (Name × T)`),
    with `mapInsert` reproducing `std::map::insert` (sorted insertion that
    keeps the existing entry when the key is already present);
  * `ModelParametersPtr` (a possibly-null `shared_ptr`) as
    `Option ModelParameters`;
  * fatal `LogicError` calls as the `Except.error` branch of `Except`.
-/

namespace Dynamite

/-- A `wstring` name, modelled as its list of code units; the empty name is
`[]`, and `std::map` key order is lexicographic order on code units. -/
abbrev Name := List Nat

/-- A CNTK `Parameter` handle: an identity plus the name it was given.
Two handles are the same parameter iff they are equal. -/
structure Parameter where
  uid : Nat
  name : Name
deriving DecidableEq, Repr

/-- Models `std::map` insertion into a sorted association list: the new pair goes to
its sorted position by key; if the key is already present the map is unchanged
(`std::map::insert` does not overwrite). -/
def mapInsert {α : Type} : List (Name × α) → Name × α → List (Name × α)
  | [], kv => [kv]
  | (k, v) :: rest, kv =>
    if kv.1 < k then kv :: (k, v) :: rest
    else if kv.1 = k then (k, v) :: rest
    else (k, v) :: mapInsert rest kv

/-- Lookup by key in an association list (`std::map::find`). -/
def mapFind {α : Type} (m : List (Name × α)) (key : Name) : Option α :=
  match m with
  | [] => none
  | (k, v) :: rest => if k = key then some v else mapFind rest key

/-- The parameter registry `ModelParameters`: named parameters of the current
level (`params`, in `std::map` iteration order) and named nested registries
(`nested`, likewise). -/
inductive ModelParameters where
  | mk (params : List (Name × Parameter)) (nested : List (Name × ModelParameters))

/-- The `m_parameters` map of a registry. -/
def ModelParameters.params : ModelParameters → List (Name × Parameter)
  | .mk ps _ => ps

/-- The `m_nestedParameters` map of a registry. -/
def ModelParameters.nested : ModelParameters → List (Name × ModelParameters)
  | .mk _ ns => ns

/-- The parameter loop of the `ModelParameters` constructor: for each
parameter in list order, a fatal `LogicError` if its name is empty, otherwise
insertion into the accumulated `m_parameters` map. -/
def insertParams (acc : List (Name × Parameter)) :
    List Parameter → Except String (List (Name × Parameter))
  | [] => .ok acc
  | p :: rest =>
    if p.name = [] then .error "parameters must be named"
    else insertParams (mapInsert acc (p.name, p)) rest

/-- The nested loop of the `ModelParameters` constructor: each entry of
`parentParameters` whose pointer is non-null (`if (kv.second)`) is inserted
into `m_nestedParameters`; null entries are skipped. -/
def insertNested (acc : List (Name × ModelParameters)) :
    List (Name × Option ModelParameters) → List (Name × ModelParameters)
  | [] => acc
  | (k, some r) :: rest => insertNested (mapInsert acc (k, r)) rest
  | (_, none) :: rest => insertNested acc rest

/-- The `ModelParameters` constructor: first the nested loop, then the
parameter loop (which can signal a fatal error). -/
def mkModelParameters (parameters : List Parameter)
    (parentParameters : List (Name × Option ModelParameters)) :
    Except String ModelParameters := do
  let ns := insertNested [] parentParameters
  let ps ← insertParams [] parameters
  return .mk ps ns

/-- Models `ModelParameters::operator[]`: current-level parameter lookup,
a fatal `LogicError` when the name is absent. -/
def ModelParameters.lookupParam (r : ModelParameters) (name : Name) :
    Except String Parameter :=
  match mapFind r.params name with
  | some p => .ok p
  | none => .error "no such parameter"

/-- Models `ModelParameters::Nested`: nested-registry lookup,
a fatal `LogicError` when the name is absent. -/
def ModelParameters.lookupNested (r : ModelParameters) (name : Name) :
    Except String ModelParameters :=
  match mapFind r.nested name with
  | some n => .ok n
  | none => .error "no such captured model"

/-- The current-level loop of `CollectParameters`: push each parameter not yet
in `visited`; `visited` is an `unordered_set`, so only membership matters. -/
def collectOwn (ps : List (Name × Parameter)) (st : List Parameter × List Parameter) :
    List Parameter × List Parameter :=
  ps.foldl (fun acc kv => if kv.2 ∈ acc.2 then acc else (acc.1 ++ [kv.2], kv.2 :: acc.2)) st

mutual

/-- Models `ModelParameters::CollectParameters`: the state is the pair
`(res, visited)`; each current-level parameter is appended to `res` when newly
inserted into `visited`, then each nested registry is traversed in map order. -/
def collectParameters : ModelParameters → List Parameter × List Parameter →
    List Parameter × List Parameter
  | .mk ps ns, st => collectNestedList ns (collectOwn ps st)

/-- The nested-registry loop of `CollectParameters`. -/
def collectNestedList : List (Name × ModelParameters) →
    List Parameter × List Parameter → List Parameter × List Parameter
  | [], st => st
  | kv :: rest, st => collectNestedList rest (collectParameters kv.2 st)

end

/-- Models `TModel::Parameters`: collection started from empty result and empty
visited set. -/
def ModelParameters.Parameters (r : ModelParameters) : List Parameter :=
  (collectParameters r ([], [])).1

mutual

/-- The full traversal order of a registry tree, duplicates included:
current-level parameters in map order, then each nested registry recursively,
in nested-map order. -/
def flatOrder : ModelParameters → List Parameter
  | .mk ps ns => ps.map Prod.snd ++ flatOrderNested ns

/-- Traversal order of a list of nested registries. -/
def flatOrderNested : List (Name × ModelParameters) → List Parameter
  | [] => []
  | kv :: rest => flatOrder kv.2 ++ flatOrderNested rest

end

/-- First-occurrence de-duplication relative to an already-visited set. -/
def dedupWrt {α : Type} [DecidableEq α] : List α → List α → List α
  | _, [] => []
  | vis, x :: rest =>
    if x ∈ vis then dedupWrt vis rest else x :: dedupWrt (x :: vis) rest

/-- The visited set after scanning a list. -/
def extendVis {α : Type} [DecidableEq α] : List α → List α → List α
  | vis, [] => vis
  | vis, x :: rest =>
    if x ∈ vis then extendVis vis rest else extendVis (x :: vis) rest

/-- First-occurrence de-duplication of a list. -/
def dedupFirst {α : Type} [DecidableEq α] (l : List α) : List α :=
  dedupWrt [] l

/-- The `std::map` representation invariant: keys strictly increasing. -/
def SortedMap {α : Type} (m : List (Name × α)) : Prop :=
  m.Pairwise (fun a b => a.1 < b.1)

/-- The first parameter in a list bearing a given name (`std::map::insert`
keeps the earliest insertion for a key). -/
def firstNamed : List Parameter → Name → Option Parameter
  | [], _ => none
  | p :: rest, key => if p.name = key then some p else firstNamed rest key

/-- The first non-null nested entry in a list bearing a given name. -/
def firstNonNull : List (Name × Option ModelParameters) → Name → Option ModelParameters
  | [], _ => none
  | (k, some r) :: rest, key => if k = key then some r else firstNonNull rest key
  | (_, none) :: rest, key => firstNonNull rest key

/-- A unary model (`TModel` over a unary callable, as used by
`UnaryBroadcastingModel`): the forward function together with its possibly
null `ModelParametersPtr`. -/
structure UnaryModel (V : Type) where
  forward : V → V
  registry : Option ModelParameters

/-- Models `operator>>`: the composed model's forward pass is `after(before(x))`,
and its registry is built by the `TModel` constructor with no own parameters
and the operands' registries nested under `"f"` (`[102]`) and `"g"`
(`[103]`). -/
def composeModels {V : Type} (before after : UnaryModel V) : UnaryModel V where
  forward := fun x => after.forward (before.forward x)
  registry :=
    (mkModelParameters [] [([102], before.registry), ([103], after.registry)]).toOption

/-- The body of `Batch::Map` over a unary model: `res.clear()` discards the
output vector's prior contents, then the model's output for each batch
element is pushed in order. -/
def batchMapUnary {V : Type} (f : V → V) (res : List V) (batch : List V) : List V :=
  batch.foldl (fun acc x => acc ++ [f x]) []

/-- The value `SIZE_MAX` of a 64-bit `size_t`. -/
def SIZE_MAX : Nat := 2 ^ 64 - 1

/-- The initial value of the `static size_t i = SIZE_MAX` behind
`Batch::CurrentMapIndex`. -/
def currentMapIndexInit : Nat := SIZE_MAX

/-- Models `std::vector::resize`: keep the first `n` elements, append
default-initialized elements if the vector was shorter. -/
def listResize {V : Type} (l : List V) (n : Nat) (dflt : V) : List V :=
  l.take n ++ List.replicate (n - l.length) dflt

/-- The body of `Batch::Map` over a binary model, with the output vector's
prior contents `res` and the global index threaded explicitly: the assertion
`y.size() == x.size()` stops the call (no output) on mismatch; otherwise
`res` is resized to `x.size()`, the loop overwrites every slot while
`CurrentMapIndex` steps through the indices, and the index is reset to
`SIZE_MAX` after the loop. Returns the final `res`, the observed index
trace, and the final `CurrentMapIndex`. -/
def batchMapBinaryRun {V : Type} (f : V → V → V) (dflt : V) (res x y : List V) :
    Option (List V × List Nat × Nat) :=
  if y.length = x.length then
    let init := listResize res x.length dflt
    let out := (List.range x.length).foldl
      (fun st i => (st.1.set i (f (x.getD i dflt) (y.getD i dflt)), st.2 ++ [i]))
      (init, [])
    some (out.1, out.2, SIZE_MAX)
  else none

mutual

/-- Models `ModelParameters::LogParameters`: nested registries are logged first,
then the current level's parameters, each printed (and implanted as the
parameter's debug name) as `prefix + name`. The recursive call passes
`kv.first + L"."` — only the immediate registry's name, not the accumulated
path. Returns the (printed name, parameter) pairs in print order; `[46]` is
the code unit of `'.'`. -/
def logParameters : ModelParameters → Name → List (Name × Parameter)
  | .mk ps ns, pfx => logParametersNested ns ++ ps.map (fun kv => (pfx ++ kv.1, kv.2))

/-- The nested loop of `LogParameters`; note it ignores the caller's
prefix. -/
def logParametersNested : List (Name × ModelParameters) → List (Name × Parameter)
  | [] => []
  | kv :: rest => logParameters kv.2 (kv.1 ++ [46]) ++ logParametersNested rest

end

/-- A CNTK `Variable` as a symbolic graph node. This layer only builds graph
nodes and reads atom shapes; a composite node's shape is computed inside the
external library and never inspected by the code under verification, so it
is modelled as opaque (`[]`). -/
inductive GraphVar where
  | atom (uid : Nat) (shape : List Nat)
  | splice (args : List GraphVar) (axis : Nat)
  | reduceSumDropLast (arg : GraphVar)

/-- Models `Variable::Shape` as read by this layer. -/
def GraphVar.shape : GraphVar → List Nat
  | .atom _ s => s
  | .splice _ _ => []
  | .reduceSumDropLast _ => []

namespace Batch

/-- Models `Batch::sum` over a flat sequence: reads `batch.front().Shape()`
unconditionally — an out-of-bounds access on an empty vector, modelled as
`none` — then splices along a new trailing axis (the front element's rank)
and reduces with `Axis_DropLastAxis`. -/
def sum (batch : List GraphVar) : Option GraphVar :=
  match batch.head? with
  | none => none
  | some front => some (.reduceSumDropLast (.splice batch front.shape.length))

/-- Models `Batch::sum` over a sequence of sequences: every element of every inner
sequence is pushed into one flat vector, which is summed. -/
def sumNested (batch : List (List GraphVar)) : Option GraphVar :=
  sum (batch.foldl (fun acc item => acc ++ item) [])

end Batch

/-- An example model used to instantiate the composition law. -/
def exModelA : UnaryModel Nat :=
  ⟨fun x => x + 1, some (.mk [([97], ⟨0, [97]⟩)] [])⟩

/-- A second example model used to instantiate the composition law. -/
def exModelB : UnaryModel Nat :=
  ⟨fun x => x * 2, some (.mk [([98], ⟨1, [98]⟩)] [])⟩

theorem mem_extendVis {α : Type} [DecidableEq α] (l : List α) :
    ∀ (vis : List α) (a : α), a ∈ extendVis vis l ↔ a ∈ vis ∨ a ∈ l := by
  induction l with
  | nil => intro vis a; simp [extendVis]
  | cons x rest ih =>
    intro vis a
    by_cases hx : x ∈ vis
    · simp only [extendVis, if_pos hx, ih]
      constructor
      · rintro (h | h)
        · exact Or.inl h
        · exact Or.inr (List.mem_cons_of_mem _ h)
      · rintro (h | h)
        · exact Or.inl h
        · rcases List.mem_cons.mp h with h | h
          · exact Or.inl (h ▸ hx)
          · exact Or.inr h
    · simp only [extendVis, if_neg hx, ih]
      simp [List.mem_cons]
      tauto

theorem dedupWrt_congr {α : Type} [DecidableEq α] (l : List α) :
    ∀ (vis vis' : List α), (∀ a, a ∈ vis ↔ a ∈ vis') →
      dedupWrt vis l = dedupWrt vis' l := by
  induction l with
  | nil => intro vis vis' _; simp [dedupWrt]
  | cons x rest ih =>
    intro vis vis' h
    by_cases hx : x ∈ vis
    · simp only [dedupWrt, if_pos hx, if_pos ((h x).mp hx)]
      exact ih vis vis' h
    · simp only [dedupWrt, if_neg hx, if_neg (fun hc => hx ((h x).mpr hc))]
      refine congrArg (x :: ·) (ih _ _ ?_)
      intro a; simp [List.mem_cons, h a]

theorem extendVis_equiv {α : Type} [DecidableEq α] (l : List α)
    (vis vis' : List α) (h : ∀ a, a ∈ vis ↔ a ∈ vis') :
    ∀ a, a ∈ extendVis vis l ↔ a ∈ extendVis vis' l := by
  intro a
  rw [mem_extendVis, mem_extendVis, h a]

theorem dedupWrt_append {α : Type} [DecidableEq α] (l₁ : List α) :
    ∀ (vis l₂ : List α),
      dedupWrt vis (l₁ ++ l₂) = dedupWrt vis l₁ ++ dedupWrt (extendVis vis l₁) l₂ := by
  induction l₁ with
  | nil => intro vis l₂; simp [dedupWrt, extendVis]
  | cons x rest ih =>
    intro vis l₂
    by_cases hx : x ∈ vis
    · simp only [List.cons_append, dedupWrt, if_pos hx, extendVis]
      exact ih vis l₂
    · simp only [List.cons_append, dedupWrt, if_neg hx, extendVis, List.cons_append]
      exact congrArg (x :: ·) (ih (x :: vis) l₂)

theorem extendVis_append {α : Type} [DecidableEq α] (l₁ : List α) :
    ∀ (vis l₂ : List α),
      extendVis vis (l₁ ++ l₂) = extendVis (extendVis vis l₁) l₂ := by
  induction l₁ with
  | nil => intro vis l₂; simp [extendVis]
  | cons x rest ih =>
    intro vis l₂
    by_cases hx : x ∈ vis
    · simp only [List.cons_append, extendVis, if_pos hx]
      exact ih vis l₂
    · simp only [List.cons_append, extendVis, if_neg hx]
      exact ih (x :: vis) l₂

theorem mem_dedupWrt {α : Type} [DecidableEq α] (l : List α) :
    ∀ (vis : List α) (a : α), a ∈ dedupWrt vis l ↔ a ∈ l ∧ a ∉ vis := by
  induction l with
  | nil => intro vis a; simp [dedupWrt]
  | cons x rest ih =>
    intro vis a
    by_cases hx : x ∈ vis
    · simp only [dedupWrt, if_pos hx, ih, List.mem_cons]
      constructor
      · rintro ⟨h₁, h₂⟩; exact ⟨Or.inr h₁, h₂⟩
      · rintro ⟨h₁ | h₁, h₂⟩
        · exact absurd (h₁ ▸ hx) h₂
        · exact ⟨h₁, h₂⟩
    · simp only [dedupWrt, if_neg hx, List.mem_cons, ih]
      constructor
      · rintro (rfl | ⟨h₁, h₂⟩)
        · exact ⟨Or.inl rfl, hx⟩
        · refine ⟨Or.inr h₁, fun hc => h₂ (Or.inr hc)⟩
      · rintro ⟨rfl | h₁, h₂⟩
        · exact Or.inl rfl
        · by_cases hax : a = x
          · exact Or.inl hax
          · exact Or.inr ⟨h₁, fun hc => hc.elim hax h₂⟩

theorem nodup_dedupWrt {α : Type} [DecidableEq α] (l : List α) :
    ∀ vis : List α, (dedupWrt vis l).Nodup := by
  induction l with
  | nil => intro vis; simp [dedupWrt]
  | cons x rest ih =>
    intro vis
    by_cases hx : x ∈ vis
    · simpa only [dedupWrt, if_pos hx] using ih vis
    · simp only [dedupWrt, if_neg hx, List.nodup_cons]
      refine ⟨fun hc => ?_, ih _⟩
      exact ((mem_dedupWrt rest _ x).mp hc).2 (List.mem_cons_self x vis)

theorem sublist_dedupWrt {α : Type} [DecidableEq α] (l : List α) :
    ∀ vis : List α, (dedupWrt vis l).Sublist l := by
  induction l with
  | nil => intro vis; simp [dedupWrt]
  | cons x rest ih =>
    intro vis
    by_cases hx : x ∈ vis
    · simpa only [dedupWrt, if_pos hx] using (ih vis).trans (List.sublist_cons_self x rest)
    · simpa only [dedupWrt, if_neg hx] using (ih (x :: vis)).cons₂ x

theorem collectOwn_eq (ps : List (Name × Parameter)) :
    ∀ res vis, collectOwn ps (res, vis) =
      (res ++ dedupWrt vis (ps.map Prod.snd), extendVis vis (ps.map Prod.snd)) := by
  induction ps with
  | nil => intro res vis; simp [collectOwn, dedupWrt, extendVis]
  | cons kv rest ih =>
    intro res vis
    by_cases hx : kv.2 ∈ vis
    · simp only [collectOwn, List.foldl_cons, if_pos hx, List.map_cons, dedupWrt, extendVis,
        if_pos hx]
      exact ih res vis
    · have h2 := ih (res ++ [kv.2]) (kv.2 :: vis)
      simp only [collectOwn] at h2
      simp only [collectOwn, List.foldl_cons, if_neg hx, List.map_cons, dedupWrt, extendVis,
        if_neg hx]
      rw [h2]
      simp [List.append_assoc]

mutual

theorem collectParameters_eq (r : ModelParameters) (res vis : List Parameter) :
    collectParameters r (res, vis) =
      (res ++ dedupWrt vis (flatOrder r), extendVis vis (flatOrder r)) := by
  match r with
  | .mk ps ns =>
    rw [collectParameters, collectOwn_eq, collectNestedList_eq, flatOrder,
      dedupWrt_append, extendVis_append, List.append_assoc]

theorem collectNestedList_eq (ns : List (Name × ModelParameters))
    (res vis : List Parameter) :
    collectNestedList ns (res, vis) =
      (res ++ dedupWrt vis (flatOrderNested ns), extendVis vis (flatOrderNested ns)) := by
  match ns with
  | [] => simp [collectNestedList, flatOrderNested, dedupWrt, extendVis]
  | kv :: rest =>
    rw [collectNestedList, collectParameters_eq, collectNestedList_eq, flatOrderNested,
      dedupWrt_append, extendVis_append, List.append_assoc]

end

/-- C1. For every registry tree, `TModel::Parameters` /
`ModelParameters::CollectParameters` returns the first-occurrence
de-duplication of the full traversal order (current-level parameters in map
order, then each nested registry recursively in nested-map order): a flat
list that contains every reachable parameter exactly once (no duplicates,
membership equal to reachability), in that order. -/
theorem collectParameters_flat_unique (r : ModelParameters) :
    r.Parameters = dedupFirst (flatOrder r) ∧
    r.Parameters.Nodup ∧
    (∀ p, p ∈ r.Parameters ↔ p ∈ flatOrder r) ∧
    r.Parameters.Sublist (flatOrder r) := by
  have h : r.Parameters = dedupFirst (flatOrder r) := by
    simp [ModelParameters.Parameters, collectParameters_eq, dedupFirst]
  refine ⟨h, ?_, ?_, ?_⟩
  · rw [h]; exact nodup_dedupWrt _ _
  · intro p; rw [h]
    simp [dedupFirst, mem_dedupWrt]
  · rw [h]; exact sublist_dedupWrt _ _

theorem mapFind_eq_none {α : Type} (m : List (Name × α)) (key : Name)
    (h : ∀ kv ∈ m, kv.1 ≠ key) : mapFind m key = none := by
  induction m with
  | nil => rfl
  | cons kv rest ih =>
    simp only [mapFind]
    rw [if_neg (h kv (List.mem_cons_self _ _)),
      ih (fun kv' hkv' => h kv' (List.mem_cons_of_mem _ hkv'))]

theorem mem_mapInsert {α : Type} (kv : Name × α) :
    ∀ (m : List (Name × α)) (a : Name × α), a ∈ mapInsert m kv → a = kv ∨ a ∈ m := by
  intro m
  induction m with
  | nil => intro a ha; simp only [mapInsert] at ha; exact Or.inl (List.mem_singleton.mp ha)
  | cons hd rest ih =>
    intro a ha
    rcases hd with ⟨k, v⟩
    simp only [mapInsert] at ha
    by_cases h1 : kv.1 < k
    · rw [if_pos h1] at ha
      rcases List.mem_cons.mp ha with rfl | ha
      · exact Or.inl rfl
      · exact Or.inr ha
    · rw [if_neg h1] at ha
      by_cases h2 : kv.1 = k
      · rw [if_pos h2] at ha
        exact Or.inr ha
      · rw [if_neg h2] at ha
        rcases List.mem_cons.mp ha with rfl | ha
        · exact Or.inr (List.mem_cons_self _ _)
        · rcases ih a ha with h | h
          · exact Or.inl h
          · exact Or.inr (List.mem_cons_of_mem _ h)

theorem sortedMap_mapInsert {α : Type} (kv : Name × α) :
    ∀ m : List (Name × α), SortedMap m → SortedMap (mapInsert m kv) := by
  intro m
  induction m with
  | nil => intro _; simp [mapInsert, SortedMap]
  | cons hd rest ih =>
    intro hs
    rcases hd with ⟨k, v⟩
    rcases (List.pairwise_cons.mp hs) with ⟨hk, hrest⟩
    simp only [mapInsert]
    by_cases h1 : kv.1 < k
    · rw [if_pos h1]
      refine List.pairwise_cons.mpr ⟨?_, hs⟩
      intro b hb
      rcases List.mem_cons.mp hb with rfl | hb
      · exact h1
      · exact lt_trans h1 (hk b hb)
    · rw [if_neg h1]
      by_cases h2 : kv.1 = k
      · rw [if_pos h2]; exact hs
      · rw [if_neg h2]
        refine List.pairwise_cons.mpr ⟨?_, ih hrest⟩
        intro b hb
        rcases mem_mapInsert kv rest b hb with rfl | hb
        · rcases lt_trichotomy b.1 k with h | h | h
          · exact absurd h h1
          · exact absurd h h2
          · exact h
        · exact hk b hb

theorem mapFind_mapInsert {α : Type} (kv : Name × α) :
    ∀ m : List (Name × α), SortedMap m → ∀ key,
      mapFind (mapInsert m kv) key =
        if key = kv.1 then some ((mapFind m kv.1).getD kv.2) else mapFind m key := by
  intro m
  induction m with
  | nil =>
    intro _ key
    by_cases hk : key = kv.1
    · simp [mapInsert, mapFind, hk]
    · rw [if_neg hk]
      simp only [mapInsert, mapFind]
      rw [if_neg (fun hc => hk hc.symm)]
  | cons hd rest ih =>
    intro hs key
    rcases hd with ⟨k, v⟩
    rcases (List.pairwise_cons.mp hs) with ⟨hk, hrest⟩
    simp only [mapInsert]
    by_cases h1 : kv.1 < k
    · rw [if_pos h1]
      have hnone : mapFind ((k, v) :: rest) kv.1 = none := by
        refine mapFind_eq_none _ _ ?_
        intro kv' hkv' hc
        rcases List.mem_cons.mp hkv' with rfl | hkv'
        · exact absurd (hc ▸ h1) (lt_irrefl _)
        · exact absurd (hc ▸ lt_trans h1 (hk kv' hkv')) (lt_irrefl _)
      by_cases hkey : key = kv.1
      · subst hkey
        rw [hnone]
        simp [mapFind]
      · rw [if_neg hkey]
        simp only [mapFind]
        rw [if_neg (fun hc => hkey hc.symm)]
    · rw [if_neg h1]
      by_cases h2 : kv.1 = k
      · rw [if_pos h2]
        by_cases hkey : key = kv.1
        · subst hkey
          simp [mapFind, h2]
        · rw [if_neg hkey]
      · rw [if_neg h2]
        by_cases hkey : key = k
        · subst hkey
          have hne : ¬ key = kv.1 := fun hc => h2 hc.symm
          rw [if_neg hne]
          simp [mapFind]
        · simp only [mapFind]
          rw [if_neg (fun hc => hkey hc.symm), ih hrest key]
          by_cases hkv : key = kv.1
          · rw [if_pos hkv, if_pos hkv]
            have : ¬ k = kv.1 := fun hc => h2 hc.symm
            rw [if_neg (hkv ▸ fun hc => hkey hc.symm)]
          · rw [if_neg hkv, if_neg hkv]
            rw [if_neg (fun hc => hkey hc.symm)]

theorem insertParams_error_iff (l : List Parameter) :
    ∀ acc, insertParams acc l = .error "parameters must be named" ↔ ∃ p ∈ l, p.name = [] := by
  induction l with
  | nil => intro acc; simp [insertParams]
  | cons p rest ih =>
    intro acc
    by_cases hp : p.name = []
    · simp only [insertParams, if_pos hp]
      constructor
      · intro _; exact ⟨p, List.mem_cons_self _ _, hp⟩
      · intro _; trivial
    · simp only [insertParams, if_neg hp, ih]
      constructor
      · rintro ⟨q, hq, hqe⟩; exact ⟨q, List.mem_cons_of_mem _ hq, hqe⟩
      · rintro ⟨q, hq, hqe⟩
        rcases List.mem_cons.mp hq with rfl | hq
        · exact absurd hqe hp
        · exact ⟨q, hq, hqe⟩

theorem insertParams_find (l : List Parameter) :
    ∀ acc ps, SortedMap acc → insertParams acc l = .ok ps →
      SortedMap ps ∧ ∀ key, mapFind ps key =
        match mapFind acc key with
        | some v => some v
        | none => firstNamed l key := by
  induction l with
  | nil =>
    intro acc ps hs h
    simp only [insertParams] at h
    cases h
    refine ⟨hs, fun key => ?_⟩
    cases hacc : mapFind acc key <;> simp [hacc, firstNamed]
  | cons p rest ih =>
    intro acc ps hs h
    by_cases hp : p.name = []
    · simp [insertParams, if_pos hp] at h
    · simp only [insertParams, if_neg hp] at h
      rcases ih (mapInsert acc (p.name, p)) ps (sortedMap_mapInsert _ _ hs) h with ⟨hps, hfind⟩
      refine ⟨hps, fun key => ?_⟩
      rw [hfind key, mapFind_mapInsert _ _ hs key]
      by_cases hkey : key = p.name
      · subst hkey
        rw [if_pos rfl]
        cases hacc : mapFind acc p.name with
        | none => simp [hacc, firstNamed]
        | some v => simp [hacc]
      · rw [if_neg hkey]
        cases hacc : mapFind acc key with
        | none =>
          simp only [hacc, firstNamed]
          rw [if_neg (fun hc => hkey hc.symm)]
        | some v => simp only [hacc]

theorem insertNested_find (pin : List (Name × Option ModelParameters)) :
    ∀ acc, SortedMap acc →
      SortedMap (insertNested acc pin) ∧ ∀ key, mapFind (insertNested acc pin) key =
        match mapFind acc key with
        | some v => some v
        | none => firstNonNull pin key := by
  induction pin with
  | nil =>
    intro acc hs
    refine ⟨hs, fun key => ?_⟩
    simp only [insertNested]
    cases hacc : mapFind acc key <;> simp [hacc, firstNonNull]
  | cons kv rest ih =>
    intro acc hs
    rcases kv with ⟨k, rOpt⟩
    cases rOpt with
    | none =>
      simp only [insertNested]
      rcases ih acc hs with ⟨h1, h2⟩
      refine ⟨h1, fun key => ?_⟩
      rw [h2 key]
      cases hacc : mapFind acc key <;> simp [hacc, firstNonNull]
    | some r =>
      simp only [insertNested]
      rcases ih (mapInsert acc (k, r)) (sortedMap_mapInsert _ _ hs) with ⟨h1, h2⟩
      refine ⟨h1, fun key => ?_⟩
      rw [h2 key, mapFind_mapInsert _ _ hs key]
      by_cases hkey : key = k
      · subst hkey
        rw [if_pos rfl]
        cases hacc : mapFind acc key with
        | none => simp [hacc, firstNonNull]
        | some v => simp [hacc, firstNonNull]
      · rw [if_neg hkey]
        cases hacc : mapFind acc key with
        | none =>
          simp only [hacc, firstNonNull]
          rw [if_neg (fun hc => hkey hc.symm)]
        | some v => simp only [hacc]

theorem mkModelParameters_ok (parameters : List Parameter)
    (pin : List (Name × Option ModelParameters)) (r : ModelParameters) :
    mkModelParameters parameters pin = .ok r ↔
      ∃ ps, insertParams [] parameters = .ok ps ∧ r = .mk ps (insertNested [] pin) := by
  simp only [mkModelParameters, bind, Except.bind]
  cases h : insertParams [] parameters with
  | error e => simp
  | ok ps =>
    simp only [pure, Except.pure, Except.ok.injEq]
    constructor
    · intro he; exact ⟨ps, rfl, he.symm⟩
    · rintro ⟨ps', hps', rfl⟩
      cases hps'
      rfl

theorem mkModelParameters_error_iff (parameters : List Parameter)
    (pin : List (Name × Option ModelParameters)) :
    mkModelParameters parameters pin = .error "parameters must be named" ↔
      ∃ p ∈ parameters, p.name = [] := by
  rw [← insertParams_error_iff parameters []]
  simp only [mkModelParameters, bind, Except.bind]
  cases h : insertParams [] parameters with
  | error e => simp
  | ok ps => simp [pure, Except.pure]

theorem firstNamed_eq_none (l : List Parameter) (key : Name)
    (h : ∀ p ∈ l, p.name ≠ key) : firstNamed l key = none := by
  induction l with
  | nil => rfl
  | cons p rest ih =>
    simp only [firstNamed]
    rw [if_neg (h p (List.mem_cons_self _ _)),
      ih (fun q hq => h q (List.mem_cons_of_mem _ hq))]

theorem firstNamed_of_nodup (l : List Parameter)
    (hn : (l.map Parameter.name).Nodup) (p : Parameter) (hp : p ∈ l) :
    firstNamed l p.name = some p := by
  induction l with
  | nil => cases hp
  | cons q rest ih =>
    rcases List.nodup_cons.mp hn with ⟨hq, hrest⟩
    rcases List.mem_cons.mp hp with rfl | hp
    · simp [firstNamed]
    · have hne : q.name ≠ p.name := by
        intro hc
        exact hq (hc ▸ List.mem_map_of_mem Parameter.name hp)
      simp only [firstNamed]
      rw [if_neg hne]
      exact ih hrest hp

theorem firstNonNull_eq_none (pin : List (Name × Option ModelParameters)) (key : Name)
    (h : ∀ kv ∈ pin, kv.1 = key → kv.2 = none) : firstNonNull pin key = none := by
  induction pin with
  | nil => rfl
  | cons kv rest ih =>
    rcases kv with ⟨k, rOpt⟩
    cases rOpt with
    | none => exact ih (fun kv' hkv' => h kv' (List.mem_cons_of_mem _ hkv'))
    | some r =>
      simp only [firstNonNull]
      rw [if_neg (fun hc => by
        have := h (k, some r) (List.mem_cons_self _ _) hc
        exact Option.noConfusion this)]
      exact ih (fun kv' hkv' => h kv' (List.mem_cons_of_mem _ hkv'))

theorem firstNonNull_of_nodup (pin : List (Name × Option ModelParameters))
    (hn : (pin.map Prod.fst).Nodup) (key : Name) (nr : ModelParameters)
    (hmem : (key, some nr) ∈ pin) : firstNonNull pin key = some nr := by
  induction pin with
  | nil => cases hmem
  | cons kv rest ih =>
    rcases kv with ⟨k, rOpt⟩
    rcases List.nodup_cons.mp hn with ⟨hk, hrest⟩
    rcases List.mem_cons.mp hmem with heq | hmem2
    · rw [← heq]
      simp [firstNonNull]
    · have hne : k ≠ key := by
        intro hc
        apply hk
        have hmm : ((key, some nr) : Name × Option ModelParameters).1 ∈ rest.map Prod.fst :=
          List.mem_map_of_mem Prod.fst hmem2
        simpa [hc] using hmm
      cases rOpt with
      | none => exact ih hrest hmem2
      | some r =>
        simp only [firstNonNull]
        rw [if_neg hne]
        exact ih hrest hmem2

theorem insertParams_ok_of_named (l : List Parameter) :
    ∀ acc, (∀ p ∈ l, p.name ≠ []) → ∃ ps, insertParams acc l = .ok ps := by
  induction l with
  | nil => intro acc _; exact ⟨acc, rfl⟩
  | cons p rest ih =>
    intro acc h
    have hp : p.name ≠ [] := h p (List.mem_cons_self _ _)
    simp only [insertParams, if_neg hp]
    exact ih _ (fun q hq => h q (List.mem_cons_of_mem _ hq))

/-- C5 counterexample: the constructor does not report an error when two
parameters share a name; at this input it succeeds, silently keeping only the
first parameter named `[97]`. -/
theorem mkModelParameters_duplicate_no_error :
    mkModelParameters [⟨0, [97]⟩, ⟨1, [97]⟩] [] =
      .ok (.mk [([97], ⟨0, [97]⟩)] []) := by
  rfl

/-- C5 (amended): registry construction reports the fatal logic error iff
some parameter in the list has an empty name; duplicate non-empty names do
not error (the earliest parameter with a given name wins); for a list of
non-empty, pairwise-distinct names construction succeeds and every parameter
is inserted under its name. -/
theorem mkModelParameters_naming (parameters : List Parameter)
    (pin : List (Name × Option ModelParameters)) :
    (mkModelParameters parameters pin = .error "parameters must be named" ↔
      ∃ p ∈ parameters, p.name = []) ∧
    ((∀ p ∈ parameters, p.name ≠ []) →
      ∃ r, mkModelParameters parameters pin = .ok r ∧
        ((parameters.map Parameter.name).Nodup →
          ∀ p ∈ parameters, mapFind r.params p.name = some p)) := by
  refine ⟨mkModelParameters_error_iff parameters pin, fun hnamed => ?_⟩
  rcases insertParams_ok_of_named parameters [] hnamed with ⟨ps, hps⟩
  refine ⟨.mk ps (insertNested [] pin), ?_, ?_⟩
  · exact (mkModelParameters_ok parameters pin _).mpr ⟨ps, hps, rfl⟩
  · intro hn p hp
    rcases insertParams_find parameters [] ps List.Pairwise.nil hps with ⟨_, hfind⟩
    rw [show (ModelParameters.mk ps (insertNested [] pin)).params = ps from rfl,
      hfind p.name]
    simpa [mapFind] using firstNamed_of_nodup parameters hn p hp

/-- Witness for the amended C5 at a concrete input. -/
theorem mkModelParameters_naming_witness :
    ∃ r, mkModelParameters [⟨0, [97]⟩, ⟨1, [98]⟩] [] = .ok r ∧
      ((([⟨0, [97]⟩, ⟨1, [98]⟩] : List Parameter).map Parameter.name).Nodup →
        ∀ p ∈ ([⟨0, [97]⟩, ⟨1, [98]⟩] : List Parameter),
          mapFind r.params p.name = some p) :=
  (mkModelParameters_naming [⟨0, [97]⟩, ⟨1, [98]⟩] []).2 (by decide)

/-- C6 counterexample: a nested entry carrying a non-null registry with zero
parameters and zero nested children is kept in the constructed registry's
nested map, not silently excluded. -/
theorem mkModelParameters_keeps_empty_nested :
    mkModelParameters [] [([110], some (.mk [] []))] =
      .ok (.mk [] [([110], .mk [] [])]) := by
  rfl

/-- C6 (amended): for every construction, a nested entry whose registry
handle is null is silently excluded; every other nested entry — including one
whose registry holds zero parameters and zero nested children — is kept under
its given name: the constructed nested map resolves each name to the first
non-null entry with that name. -/
theorem mkModelParameters_nested_pruning (parameters : List Parameter)
    (pin : List (Name × Option ModelParameters)) (r : ModelParameters)
    (h : mkModelParameters parameters pin = .ok r) :
    ∀ key, mapFind r.nested key = firstNonNull pin key := by
  rcases (mkModelParameters_ok parameters pin r).mp h with ⟨ps, _, rfl⟩
  intro key
  rcases insertNested_find pin [] List.Pairwise.nil with ⟨_, hfind⟩
  rw [show (ModelParameters.mk ps (insertNested [] pin)).nested =
    insertNested [] pin from rfl, hfind key]
  simp [mapFind]

/-- Witness for the amended C6 at a concrete input: the null entry `[109]` is
dropped and the non-null empty registry under `[110]` is kept. -/
theorem mkModelParameters_nested_pruning_witness :
    mapFind (ModelParameters.mk [] [([110], .mk [] [])]).nested [110] =
        firstNonNull [([109], none), ([110], some (.mk [] []))] [110] ∧
      mapFind (ModelParameters.mk [] [([110], .mk [] [])]).nested [109] =
        firstNonNull [([109], none), ([110], some (.mk [] []))] [109] := by
  have T := mkModelParameters_nested_pruning []
    [([109], none), ([110], some (.mk [] []))] (.mk [] [([110], .mk [] [])]) rfl
  exact ⟨T [110], T [109]⟩

/-- C7: on a registry built by the constructor, looking up a parameter name
(`operator[]`) or nested-registry name (`Nested`) absent at the current level
fails with the fatal logic error, and looking up a present name returns
exactly the instance that was inserted at construction. -/
theorem lookup_present_absent (parameters : List Parameter)
    (pin : List (Name × Option ModelParameters)) (r : ModelParameters)
    (h : mkModelParameters parameters pin = .ok r) :
    (∀ name, (∀ p ∈ parameters, p.name ≠ name) →
        r.lookupParam name = .error "no such parameter") ∧
    ((parameters.map Parameter.name).Nodup →
      ∀ p ∈ parameters, r.lookupParam p.name = .ok p) ∧
    (∀ name, (∀ kv ∈ pin, kv.1 = name → kv.2 = none) →
        r.lookupNested name = .error "no such captured model") ∧
    ((pin.map Prod.fst).Nodup →
      ∀ name nr, (name, some nr) ∈ pin → r.lookupNested name = .ok nr) := by
  rcases (mkModelParameters_ok parameters pin r).mp h with ⟨ps, hps, rfl⟩
  rcases insertParams_find parameters [] ps List.Pairwise.nil hps with ⟨_, hfindP⟩
  rcases insertNested_find pin [] List.Pairwise.nil with ⟨_, hfindN⟩
  have hP : ∀ key, mapFind ps key = firstNamed parameters key := by
    intro key; rw [hfindP key]; simp [mapFind]
  have hN : ∀ key, mapFind (insertNested [] pin) key = firstNonNull pin key := by
    intro key; rw [hfindN key]; simp [mapFind]
  refine ⟨?_, ?_, ?_, ?_⟩
  · intro name habs
    simp only [ModelParameters.lookupParam, ModelParameters.params, hP name,
      firstNamed_eq_none parameters name habs]
  · intro hn p hp
    simp only [ModelParameters.lookupParam, ModelParameters.params, hP p.name,
      firstNamed_of_nodup parameters hn p hp]
  · intro name habs
    simp only [ModelParameters.lookupNested, ModelParameters.nested, hN name,
      firstNonNull_eq_none pin name habs]
  · intro hn name nr hmem
    simp only [ModelParameters.lookupNested, ModelParameters.nested, hN name,
      firstNonNull_of_nodup pin hn name nr hmem]

/-- Witness for C7 at a concrete registry: present parameter `[97]` and
present nested `[110]` are returned as inserted; absent `[98]` / `[109]`
fail. -/
theorem lookup_present_absent_witness :
    (ModelParameters.mk [([97], ⟨5, [97]⟩)] [([110], .mk [] [])]).lookupParam [97] =
        .ok ⟨5, [97]⟩ ∧
      (ModelParameters.mk [([97], ⟨5, [97]⟩)] [([110], .mk [] [])]).lookupParam [98] =
        .error "no such parameter" ∧
      (ModelParameters.mk [([97], ⟨5, [97]⟩)] [([110], .mk [] [])]).lookupNested [110] =
        .ok (.mk [] []) ∧
      (ModelParameters.mk [([97], ⟨5, [97]⟩)] [([110], .mk [] [])]).lookupNested [109] =
        .error "no such captured model" := by
  have T := lookup_present_absent [⟨5, [97]⟩] [([110], some (.mk [] []))]
    (.mk [([97], ⟨5, [97]⟩)] [([110], .mk [] [])]) rfl
  refine ⟨T.2.1 (by decide) ⟨5, [97]⟩ (by decide), T.1 [98] (by decide), ?_, ?_⟩
  · exact T.2.2.2 (by decide) [110] (.mk [] []) (List.mem_singleton.mpr rfl)
  · refine T.2.2.1 [109] ?_
    intro kv hkv heq
    rw [List.mem_singleton] at hkv
    subst hkv
    exact absurd heq (by decide)

theorem mem_Parameters_iff (r : ModelParameters) (p : Parameter) :
    p ∈ r.Parameters ↔ p ∈ flatOrder r := by
  simp [ModelParameters.Parameters, collectParameters_eq, dedupFirst, mem_dedupWrt]

/-- C2: `(a >> b)(x) = b(a(x))` for every input; the composed model's registry
nests `a`'s registry under `"f"` (`[102]`) and `b`'s under `"g"` (`[103]`),
and its recursively collected parameter set is the union of the two operands'
collected sets. -/
theorem compose_spec {V : Type} (a b : UnaryModel V) (ra rb : ModelParameters)
    (ha : a.registry = some ra) (hb : b.registry = some rb) :
    (∀ x, (composeModels a b).forward x = b.forward (a.forward x)) ∧
    ∃ rc, (composeModels a b).registry = some rc ∧
      rc.params = [] ∧ rc.nested = [([102], ra), ([103], rb)] ∧
      ∀ p, p ∈ rc.Parameters ↔ p ∈ ra.Parameters ∨ p ∈ rb.Parameters := by
  refine ⟨fun x => rfl, ⟨.mk [] [([102], ra), ([103], rb)], ?_, rfl, rfl, ?_⟩⟩
  · show (mkModelParameters [] [([102], a.registry), ([103], b.registry)]).toOption = _
    rw [ha, hb]
    rfl
  · intro p
    rw [mem_Parameters_iff, mem_Parameters_iff, mem_Parameters_iff]
    simp [flatOrder, flatOrderNested]

/-- Witness for C2 at two concrete one-parameter models. -/
theorem compose_spec_witness :
    (∀ x, (composeModels exModelA exModelB).forward x =
        exModelB.forward (exModelA.forward x)) ∧
    ∃ rc, (composeModels exModelA exModelB).registry = some rc ∧
      rc.params = [] ∧
      rc.nested = [([102], .mk [([97], ⟨0, [97]⟩)] []), ([103], .mk [([98], ⟨1, [98]⟩)] [])] ∧
      ∀ p, p ∈ rc.Parameters ↔
        p ∈ (ModelParameters.mk [([97], ⟨0, [97]⟩)] []).Parameters ∨
        p ∈ (ModelParameters.mk [([98], ⟨1, [98]⟩)] []).Parameters :=
  compose_spec exModelA exModelB _ _ rfl rfl

theorem foldl_push_eq_map {V W : Type} (f : V → W) (batch : List V) :
    ∀ acc, batch.foldl (fun acc x => acc ++ [f x]) acc = acc ++ batch.map f := by
  induction batch with
  | nil => intro acc; simp
  | cons x rest ih => intro acc; simp [ih]

/-- C3: `Batch::Map` over a unary model maps each element independently:
the output has the input's length and its `i`-th element is the model applied
to the `i`-th input element, for every length (including 0) and regardless of
the output vector's prior contents. -/
theorem batchMapUnary_spec {V : Type} (f : V → V) (res batch : List V) :
    batchMapUnary f res batch = batch.map f ∧
    (batchMapUnary f res batch).length = batch.length ∧
    ∀ i : Nat, (batchMapUnary f res batch)[i]? = (batch[i]?).map f := by
  have h : batchMapUnary f res batch = batch.map f := by
    simp [batchMapUnary, foldl_push_eq_map]
  exact ⟨h, by simp [h], fun i => by rw [h, List.getElem?_map]⟩

theorem binaryFold_spec {V : Type} (f : V → V → V) (dflt : V) (x y : List V)
    (init : List V) : ∀ j, j ≤ init.length →
    ((List.range j).foldl
        (fun st i => (st.1.set i (f (x.getD i dflt) (y.getD i dflt)), st.2 ++ [i]))
        (init, ([] : List Nat))).2 = List.range j ∧
    ((List.range j).foldl
        (fun st i => (st.1.set i (f (x.getD i dflt) (y.getD i dflt)), st.2 ++ [i]))
        (init, ([] : List Nat))).1.length = init.length ∧
    ∀ i, ((List.range j).foldl
        (fun st i => (st.1.set i (f (x.getD i dflt) (y.getD i dflt)), st.2 ++ [i]))
        (init, ([] : List Nat))).1[i]? =
      if i < j then some (f (x.getD i dflt) (y.getD i dflt)) else init[i]? := by
  intro j
  induction j with
  | zero =>
    intro _
    refine ⟨rfl, rfl, fun i => ?_⟩
    simp
  | succ j ih =>
    intro hj
    have hj' : j ≤ init.length := Nat.le_of_succ_le hj
    rcases ih hj' with ⟨htr, hlen, hget⟩
    rw [List.range_succ, List.foldl_append]
    refine ⟨?_, ?_, ?_⟩
    · simp only [List.foldl_cons, List.foldl_nil]
      rw [htr, ← List.range_succ]
    · simp only [List.foldl_cons, List.foldl_nil]
      rw [List.length_set, hlen]
    · intro i
      simp only [List.foldl_cons, List.foldl_nil]
      by_cases hij : i = j
      · subst hij
        have hlt : i < ((List.range i).foldl
            (fun st k => (st.1.set k (f (x.getD k dflt) (y.getD k dflt)), st.2 ++ [k]))
            (init, ([] : List Nat))).1.length := by
          rw [hlen]; exact Nat.lt_of_succ_le hj
        rw [List.getElem?_set_eq hlt, if_pos (Nat.lt_succ_self i)]
      · rw [List.getElem?_set_ne (fun hc => hij hc.symm), hget i]
        by_cases hil : i < j
        · rw [if_pos hil, if_pos (Nat.lt_succ_of_lt hil)]
        · rw [if_neg hil, if_neg (fun hc => hil (Nat.lt_of_le_of_ne (Nat.le_of_lt_succ hc) hij))]

theorem listResize_length {V : Type} (l : List V) (n : Nat) (dflt : V) :
    (listResize l n dflt).length = n := by
  simp [listResize]
  omega

theorem getD_zipWith {V : Type} (f : V → V → V) (dflt : V) :
    ∀ (x y : List V), y.length = x.length → ∀ i, i < x.length →
      (List.zipWith f x y).getD i dflt = f (x.getD i dflt) (y.getD i dflt) := by
  intro x
  induction x with
  | nil => intro y _ i hi; cases hi
  | cons a xs ih =>
    intro y hy i hi
    cases y with
    | nil => cases hy
    | cons b ys =>
      cases i with
      | zero => rfl
      | succ i =>
        simp only [List.zipWith_cons_cons, List.getD_cons_succ]
        exact ih ys (Nat.succ.inj hy) i (Nat.lt_of_succ_lt_succ hi)

theorem zipWith_length_of_eq {V : Type} (f : V → V → V) (x y : List V)
    (h : y.length = x.length) : (List.zipWith f x y).length = x.length := by
  rw [List.length_zipWith, h, Nat.min_self]

theorem getElem?_zipWith_getD {V : Type} (f : V → V → V) (dflt : V) :
    ∀ (x y : List V), y.length = x.length → ∀ i, i < x.length →
      (List.zipWith f x y)[i]? = some (f (x.getD i dflt) (y.getD i dflt)) := by
  intro x
  induction x with
  | nil => intro y _ i hi; cases hi
  | cons a xs ih =>
    intro y hy i hi
    cases y with
    | nil => cases hy
    | cons b ys =>
      cases i with
      | zero => simp
      | succ i =>
        simp only [List.zipWith_cons_cons, List.getElem?_cons_succ, List.getD_cons_succ]
        exact ih ys (Nat.succ.inj hy) i (Nat.lt_of_succ_lt_succ hi)

theorem batchMapBinaryRun_of_eq_length {V : Type} (f : V → V → V) (dflt : V)
    (res x y : List V) (h : y.length = x.length) :
    batchMapBinaryRun f dflt res x y =
      some (List.zipWith f x y, List.range x.length, SIZE_MAX) := by
  have hlen : (listResize res x.length dflt).length = x.length :=
    listResize_length res x.length dflt
  rcases binaryFold_spec f dflt x y (listResize res x.length dflt) x.length
    (le_of_eq hlen.symm) with ⟨htr, hblen, hbget⟩
  simp only [batchMapBinaryRun, if_pos h]
  refine congrArg some ?_
  refine Prod.ext ?_ (Prod.ext htr rfl)
  show _ = List.zipWith f x y
  apply List.ext_getElem?
  intro i
  rw [hbget i]
  by_cases hi : i < x.length
  · rw [if_pos hi, getElem?_zipWith_getD f dflt x y h i hi]
  · rw [if_neg hi]
    rw [List.getElem?_eq_none (by rw [hlen]; exact Nat.le_of_not_lt hi),
      List.getElem?_eq_none (by rw [zipWith_length_of_eq f x y h]; exact Nat.le_of_not_lt hi)]

/-- C4: `Batch::Map` over a binary model fails on the length assertion —
producing no output — when the input lengths differ; on equal lengths `N` it
produces exactly the length-`N` elementwise sequence `f(x[i], y[i])`,
whatever the output vector previously held. -/
theorem batchMapBinary_spec {V : Type} (f : V → V → V) (dflt : V) (res x y : List V) :
    (y.length ≠ x.length → batchMapBinaryRun f dflt res x y = none) ∧
    (y.length = x.length →
      ∃ tr, batchMapBinaryRun f dflt res x y =
          some (List.zipWith f x y, tr, SIZE_MAX) ∧
        (List.zipWith f x y).length = x.length ∧
        ∀ i, i < x.length →
          (List.zipWith f x y).getD i dflt = f (x.getD i dflt) (y.getD i dflt)) := by
  constructor
  · intro hne
    simp [batchMapBinaryRun, if_neg hne]
  · intro h
    exact ⟨List.range x.length, batchMapBinaryRun_of_eq_length f dflt res x y h,
      zipWith_length_of_eq f x y h, getD_zipWith f dflt x y h⟩

/-- Witness for C4: a mismatched pair fails with no output; an equal-length
pair maps elementwise. -/
theorem batchMapBinary_spec_witness :
    batchMapBinaryRun Nat.add 0 [9] [1] [] = none ∧
    ∃ tr, batchMapBinaryRun Nat.add 0 [9] [1, 2] [10, 20] =
        some (List.zipWith Nat.add [1, 2] [10, 20], tr, SIZE_MAX) ∧
      (List.zipWith Nat.add [1, 2] [10, 20]).length = 2 ∧
      ∀ i, i < 2 → (List.zipWith Nat.add [1, 2] [10, 20]).getD i 0 =
        Nat.add ([1, 2].getD i 0) ([10, 20].getD i 0) :=
  ⟨(batchMapBinary_spec Nat.add 0 [9] [1] []).1 (by decide),
    (batchMapBinary_spec Nat.add 0 [9] [1, 2] [10, 20]).2 rfl⟩

/-- C9: the process-wide `Batch::CurrentMapIndex` starts at `SIZE_MAX`
(static initialization), equals `i` while the `i`-th element of a binary
`Batch::Map` call is computed, and is `SIZE_MAX` again after the loop
completes. -/
theorem currentMapIndex_spec {V : Type} (f : V → V → V) (dflt : V)
    (res x y : List V) (h : y.length = x.length) :
    currentMapIndexInit = SIZE_MAX ∧
    ∃ out tr, batchMapBinaryRun f dflt res x y = some (out, tr, SIZE_MAX) ∧
      tr = List.range x.length ∧
      ∀ i, i < x.length → tr[i]? = some i := by
  refine ⟨rfl, List.zipWith f x y, List.range x.length,
    batchMapBinaryRun_of_eq_length f dflt res x y h, rfl, fun i hi => ?_⟩
  rw [List.getElem?_eq_getElem (by simpa using hi)]
  simp

/-- Witness for C9 at a concrete two-element call. -/
theorem currentMapIndex_spec_witness :
    currentMapIndexInit = SIZE_MAX ∧
    ∃ out tr, batchMapBinaryRun Nat.add 0 [] [1, 2] [10, 20] =
        some (out, tr, SIZE_MAX) ∧
      tr = List.range 2 ∧
      ∀ i, i < 2 → tr[i]? = some i :=
  currentMapIndex_spec Nat.add 0 [] [1, 2] [10, 20] rfl

/-- C8: `LogParameters` drops the accumulated prefix when recursing, so at
depth two the parameter `p` (`[112]`) inside registry `b` (`[98]`) inside
registry `a` (`[97]`) is printed and implanted as `"b.p"` (`[98, 46, 112]`),
not as the fully qualified dotted path `"a.b.p"` (`[97, 46, 98, 46, 112]`)
that the spec (and the code's own comment) promises. -/
theorem logParameters_depth_two :
    logParameters
        (.mk [] [([97], .mk [] [([98], .mk [([112], ⟨7, [112]⟩)] [])])]) [] =
      [([98, 46, 112], ⟨7, [112]⟩)] ∧
    ([98, 46, 112] : Name) ≠ [97, 46, 98, 46, 112] := by
  exact ⟨rfl, by decide⟩

theorem sum_eq_none_iff (batch : List GraphVar) :
    Batch.sum batch = none ↔ batch = [] := by
  cases batch with
  | nil => simp [Batch.sum]
  | cons v vs => simp [Batch.sum]

theorem foldl_append_eq_flatten {V : Type} (l : List (List V)) :
    ∀ acc, l.foldl (fun acc item => acc ++ item) acc = acc ++ l.flatten := by
  induction l with
  | nil => intro acc; simp
  | cons s rest ih => intro acc; simp [ih]

/-- C10: `Batch::sum` reads the front element's shape before anything else,
so it is defined exactly on non-empty sequences (the empty sequence hits the
out-of-bounds front access); the nested overload flattens first and hence
requires at least one element across all inner sequences. -/
theorem batchSum_requires_nonempty :
    (∀ batch, Batch.sum batch = none ↔ batch = []) ∧
    (∀ batch : List (List GraphVar),
      Batch.sumNested batch = none ↔ ∀ s ∈ batch, s = []) := by
  refine ⟨sum_eq_none_iff, fun batch => ?_⟩
  rw [Batch.sumNested, foldl_append_eq_flatten, List.nil_append, sum_eq_none_iff]
  exact List.flatten_eq_nil_iff

end Dynamite
